import Mathlib

set_option maxHeartbeats 1000000

/-!
Verification development for the smbput repository.

The definitions below are a shallow embedding of the host-resolution core
(src/resolve.go: resolveHost, lookupHost, lookupLLMNR, uniqueIPs, remaining),
the address parser (splitServerAddress together with the net.SplitHostPort
routine it calls) and the remote-path normalizer (normalizeRemotePath together
with path.Clean).  Go machine values are modelled by Nat/Int; a Go net.IP
(a nilable byte slice) is modelled by Option (List Nat); fallible operations
return Except or a (value, Option error) pair exactly where the Go code
returns (value, error).  Network and clock nondeterminism is supplied by
explicit environment records, one field per external observation the code
makes.
-/

namespace Smbput

/-- A Go net.IP value: none is the nil slice, some bs a non-nil byte slice. -/
abbrev NetIP := Option (List Nat)

/-! ### Go stdlib: net.IP.String (canonical address text, net/ip.go) -/
/-- Lowercase hex digit table used by Go's hexString helper. -/
def hexDigit (n : Nat) : Char :=
  "0123456789abcdef".data.getD n '0'

/-- Go hexString: each byte as two lowercase hex digits. -/
def hexBytes (bs : List Nat) : List Char :=
  (bs.map fun b => [hexDigit (b / 16 % 16), hexDigit (b % 16)]).flatten

/-- Decimal rendering of one byte (Go's ubtoa). -/
def decByte (n : Nat) : List Char :=
  Nat.toDigits 10 n

/-- Dotted-quad rendering of four bytes. -/
def dottedQuad (a b c d : Nat) : List Char :=
  decByte a ++ '.' :: decByte b ++ '.' :: decByte c ++ '.' :: decByte d

/-- Go net.IP.To4: a 4-byte slice itself, the tail of a v4-mapped 16-byte
slice, nil otherwise. -/
def ipTo4 (bs : List Nat) : Option (List Nat) :=
  if bs.length = 4 then some bs
  else if bs.length = 16 ∧ bs.take 10 = List.replicate 10 0 ∧
      bs.getD 10 0 = 255 ∧ bs.getD 11 0 = 255 then
    some (bs.drop 12)
  else none

/-- The eight 16-bit groups of a 16-byte IPv6 address. -/
def ipv6Groups : List Nat → List Nat
  | b0 :: b1 :: rest => (b0 * 256 + b1) :: ipv6Groups rest
  | _ => []

/-- Length of the leading run of zero groups. -/
def zeroRunLen : List Nat → Nat
  | 0 :: rest => 1 + zeroRunLen rest
  | _ => 0

/-- Scan for the leftmost longest run of zero groups (Go's e0/e1 loop);
returns (start index, length) with (0,0) meaning none found yet. -/
def scanZeroRuns : List Nat → Nat → Nat × Nat → Nat × Nat
  | [], _, best => best
  | x :: rest, i, best =>
    if x = 0 then
      let l := 1 + zeroRunLen rest
      let best' := if best.2 < l then (i, l) else best
      scanZeroRuns (rest.drop (l - 1)) (i + l) best'
    else
      scanZeroRuns rest (i + 1) best
termination_by g _ _ => g.length
decreasing_by
  all_goals (simp only [List.length_cons, List.length_drop]; omega)

/-- The zero run compressed as "::", only when it spans at least two groups
(Go: "if e1-e0 <= 2 { e0, e1 = -1, -1 }" in byte offsets). -/
def bestZeroRun (g : List Nat) : Option (Nat × Nat) :=
  let best := scanZeroRuns g 0 (0, 0)
  if 2 ≤ best.2 then some best else none

/-- One group in lowercase hex without leading zeros (Go's appendHex). -/
def hexGroup (n : Nat) : List Char :=
  Nat.toDigits 16 n

/-- Render the groups, compressing the chosen zero run as "::". -/
def renderGroups (comp : Option (Nat × Nat)) : List Nat → Nat → List Char
  | [], _ => []
  | x :: rest, i =>
    match comp with
    | some (s, l) =>
      if i = s then
        match h : rest.drop (l - 1) with
        | [] => [':', ':']
        | y :: rest3 => ':' :: ':' :: (hexGroup y ++ renderGroups comp rest3 (s + l + 1))
      else
        (if i = 0 then [] else [':']) ++ hexGroup x ++ renderGroups comp rest (i + 1)
    | none =>
      (if i = 0 then [] else [':']) ++ hexGroup x ++ renderGroups comp rest (i + 1)
termination_by g _ => g.length
decreasing_by
  all_goals first
    | (simp only [List.length_cons]; omega)
    | (have h2 : (rest.drop (l - 1)).length = rest3.length + 1 := by rw [h]; rfl
       simp only [List.length_drop] at h2
       simp only [List.length_cons]
       omega)

/-- Go net.IP.String(): "<nil>" for nil/empty, dotted quad for IPv4 and
v4-mapped addresses, "?"+hex for invalid lengths, RFC-5952-style text for
IPv6. -/
def ipString (ip : NetIP) : String :=
  match ip with
  | none => "<nil>"
  | some bs =>
    if bs.length = 0 then "<nil>"
    else
      match ipTo4 bs with
      | some [a, b, c, d] => ⟨dottedQuad a b c d⟩
      | _ =>
        if bs.length ≠ 16 then ⟨'?' :: hexBytes bs⟩
        else
          let g := ipv6Groups bs
          ⟨renderGroups (bestZeroRun g) g 0⟩

/-! ### src/resolve.go: uniqueIPs -/
/-- The map-backed dedupe loop of uniqueIPs (src/resolve.go lines 199-209):
skip nil entries, skip entries whose canonical string was already seen,
otherwise keep the entry and record its key. -/
def uniqueIPsLoop (seen : List String) : List NetIP → List NetIP
  | [] => []
  | ip :: rest =>
    if ip = none then uniqueIPsLoop seen rest
    else
      let key := ipString ip
      if key ∈ seen then uniqueIPsLoop seen rest
      else ip :: uniqueIPsLoop (key :: seen) rest

/-- src/resolve.go uniqueIPs: inputs with fewer than two entries are returned
unchanged; otherwise dedupe by canonical string form, dropping nil entries. -/
def uniqueIPs (ips : List NetIP) : List NetIP :=
  if ips.length < 2 then ips else uniqueIPsLoop [] ips

/-- Spec-side dedupe (§4.3 of the spec, stated as a first-seen fold): drop
nil entries and keep the first occurrence of each canonical string. -/
def dedupeSpec (ips : List NetIP) : List NetIP :=
  ips.foldl
    (fun acc ip =>
      if ip ≠ none ∧ ipString ip ∉ acc.map ipString then acc ++ [ip] else acc)
    []

/-! ### Go stdlib: net.SplitHostPort and the smbput address parser -/
/-- The error type net.SplitHostPort produces (net.AddrError): an error text
plus the offending address. -/
structure GoAddrError where
  err : String
  addr : String
deriving DecidableEq, Repr

/-- Index of the last occurrence of a character (Go's last helper). -/
def lastIndexOf (c : Char) (l : List Char) : Option Nat :=
  match l.reverse.findIdx? (· = c) with
  | none => none
  | some k => some (l.length - 1 - k)

/-- Go net.SplitHostPort: split "host:port" at the last colon, handling a
bracketed host, and returning AddrError values exactly as the stdlib does.
The port substring is not validated in any way. -/
def splitHostPort (hostport : String) : Except GoAddrError (String × String) :=
  let s := hostport.data
  match lastIndexOf ':' s with
  | none => .error ⟨"missing port in address", hostport⟩
  | some i =>
    if s.head? = some '[' then
      match s.findIdx? (· = ']') with
      | none => .error ⟨"missing ']' in address", hostport⟩
      | some endIdx =>
        if endIdx + 1 = s.length then .error ⟨"missing port in address", hostport⟩
        else if endIdx + 1 = i then
          if (s.drop 1).any (· = '[') then .error ⟨"missing '[' in address", hostport⟩
          else if (s.drop (endIdx + 1)).any (· = ']') then
            .error ⟨"missing ']' in address", hostport⟩
          else .ok (⟨(s.take endIdx).drop 1⟩, ⟨s.drop (i + 1)⟩)
        else if s.getD (endIdx + 1) ' ' = ':' then
          .error ⟨"too many colons in address", hostport⟩
        else .error ⟨"missing port in address", hostport⟩
    else
      if (s.take i).any (· = ':') then .error ⟨"too many colons in address", hostport⟩
      else if s.any (· = '[') then .error ⟨"missing '[' in address", hostport⟩
      else if s.any (· = ']') then .error ⟨"missing ']' in address", hostport⟩
      else .ok (⟨s.take i⟩, ⟨s.drop (i + 1)⟩)

/-- strings.Contains. -/
def goContains (s sub : String) : Bool :=
  decide (List.IsInfix sub.data s.data)

/-- strings.Trim with the cutset "[]": remove any leading and trailing
bracket characters. -/
def trimBrackets (l : List Char) : List Char :=
  ((l.dropWhile fun c => c = '[' ∨ c = ']').reverse.dropWhile
    fun c => c = '[' ∨ c = ']').reverse

/-- smbput splitServerAddress (main source file, lines 289-319).  The
`parseIPOk` parameter abstracts net.ParseIP (stdlib), true iff the string is
an IP literal. -/
def splitServerAddress (parseIPOk : String → Bool) (address : String) :
    Except String (String × String) :=
  if address = "" then .error "server address is required"
  else if address.data.head? = some '[' ∧ address.data.getLast? = some ']' then
    .ok (⟨trimBrackets address.data⟩, "445")
  else
    match splitHostPort address with
    | .ok (host, port) => .ok (host, if port = "" then "445" else port)
    | .error addrErr =>
      if goContains addrErr.err "missing port in address" then
        if address.data.head? = some '[' then .ok (⟨trimBrackets address.data⟩, "445")
        else .ok (address, "445")
      else if parseIPOk address then .ok (address, "445")
      else .error ("parse server address " ++ address)

/-! ### Go stdlib: path.Clean, and smbput normalizeRemotePath -/
/-- The backtracking step of path.Clean's ".." handling: after the
unconditional first pop, keep popping buffer characters (the buffer is kept
reversed, most recent first) while the buffer is longer than dotdot and the
character just popped is not a slash. -/
def cleanPop (dotdot : Nat) (c : Char) : List Char → List Char
  | [] => []
  | d :: rest =>
    if dotdot < (d :: rest).length ∧ c ≠ '/' then cleanPop dotdot d rest
    else d :: rest

/-- The main loop of Go's path.Clean (path/path.go), over the remaining
input; out is the output buffer in reversed order. -/
def cleanCore (rooted : Bool) : List Char → List Char → Nat → List Char
  | [], out, _ => out
  | c :: cs, out, dotdot =>
    if c = '/' then
      -- empty path element
      cleanCore rooted cs out dotdot
    else if c = '.' ∧ (cs = [] ∨ cs.head? = some '/') then
      -- . element
      cleanCore rooted cs out dotdot
    else if c = '.' ∧ cs.head? = some '.' ∧ (cs.tail = [] ∨ cs.tail.head? = some '/') then
      -- .. element: backtrack if possible, else emit ".." when not rooted
      if dotdot < out.length then
        match out with
        | [] => cleanCore rooted cs.tail [] dotdot
        | c0 :: rest => cleanCore rooted cs.tail (cleanPop dotdot c0 rest) dotdot
      else if rooted = false then
        let out1 := if 0 < out.length then '/' :: out else out
        cleanCore rooted cs.tail ('.' :: '.' :: out1) ('.' :: '.' :: out1).length
      else
        cleanCore rooted cs.tail out dotdot
    else
      -- real path element: add slash if needed, then copy the element
      let out1 := if (rooted ∧ out.length ≠ 1) ∨ (rooted = false ∧ out.length ≠ 0) then
          '/' :: out
        else out
      cleanCore rooted ((c :: cs).dropWhile (· ≠ '/'))
        (((c :: cs).takeWhile (· ≠ '/')).reverse ++ out1) dotdot
termination_by inp _ _ => inp.length
decreasing_by
  all_goals simp only [List.length_cons, List.length_tail]
  all_goals try omega
  all_goals rename_i h1 h2 h3
  all_goals
    (rw [List.dropWhile_cons, if_pos (by simpa using h1)]
     clear h2 h3
     have hlen : (cs.dropWhile (fun x => decide (x ≠ '/'))).length ≤ cs.length := by
       induction cs with
       | nil => simp
       | cons x xs ihx =>
         rw [List.dropWhile_cons]
         split
         · exact Nat.le_trans ihx (by simp)
         · simp
     omega)

/-- Go path.Clean: canonicalize a slash-separated path. -/
def pathClean (s : String) : String :=
  match s.data with
  | [] => "."
  | c :: rest =>
    let out :=
      if c = '/' then cleanCore true rest ['/'] 1
      else cleanCore false (c :: rest) [] 0
    if out = [] then "." else ⟨out.reverse⟩

/-- strings.ReplaceAll(p, "\\", "/"): a single-character replacement. -/
def replaceBS (p : String) : String :=
  ⟨p.data.map fun c => if c = '\\' then '/' else c⟩

/-- strings.TrimPrefix(p, "/") guarded by strings.HasPrefix(p, "/"). -/
def stripLead (p : String) : String :=
  if p.data.head? = some '/' then ⟨p.data.tail⟩ else p

/-- The tail of normalizeRemotePath: map the cleaned rooted path back to a
relative one ("." for the root, otherwise drop the leading slash). -/
def stripRoot (clean : String) : String :=
  if clean = "/" ∨ clean = "." then "."
  else if clean.data.head? = some '/' then ⟨clean.data.tail⟩ else clean

/-- smbput normalizeRemotePath (main source file, lines 274-287): convert
backslashes, strip a leading slash, clean as a rooted path, then strip the
root slash again. -/
def normalizeRemotePath (p : String) : String :=
  if p = "" then "."
  else stripRoot (pathClean ("/" ++ stripLead (replaceBS p)))

/-! ### Canonical-path model: a cleaned rooted path is '/' followed by
well-formed segments joined by single slashes -/
/-- A well-formed path segment: nonempty, no separator, no backslash,
and not one of the special elements "." and "..". -/
def goodSeg (s : List Char) : Prop :=
  s ≠ [] ∧ '/' ∉ s ∧ '\\' ∉ s ∧ s ≠ ['.'] ∧ s ≠ ['.', '.']

/-- Segments joined by single slashes. -/
def joinSegs : List (List Char) → List Char
  | [] => []
  | [s] => s
  | s :: s2 :: rest => s ++ '/' :: joinSegs (s2 :: rest)

/-- The cleanCore output buffer (reversed) denoting the rooted path
"/" ++ joinSegs segs. -/
def segsOut (segs : List (List Char)) : List Char :=
  (joinSegs segs).reverse ++ ['/']

/-! ### src/resolve.go: the resolution engine

Durations and instants are Int nanoseconds.  Each network or clock
observation the code makes is a field of an environment record, so the
model quantifies over every possible behavior of the collaborators. -/
/-- go: strings.HasSuffix. -/
def goHasSuffix (s suffix : String) : Bool :=
  decide (List.IsSuffix suffix.data s.data)

/-- 3 * time.Second in nanoseconds. -/
def threeSeconds : Int := 3000000000

/-- 500 * time.Millisecond in nanoseconds. -/
def halfSecond : Int := 500000000

/-- resolve.go lines 24-26: a non-positive timeout defaults to 3 seconds. -/
def effectiveTimeout (timeout : Int) : Int :=
  if timeout ≤ 0 then threeSeconds else timeout

/-- resolve.go line 28: the one absolute deadline shared by the tiers. -/
def resolveDeadline (now0 timeout : Int) : Int :=
  now0 + effectiveTimeout timeout

/-- resolve.go lines 52-55: the engine computes the multicast budget from
the remaining time and clamps a non-positive remainder to 500ms. -/
def engineLLMNRTimeout (remainingNs : Int) : Int :=
  if remainingNs ≤ 0 then halfSecond else remainingNs

/-- resolve.go line 132: lookupLLMNR sets the socket read deadline to
now + timeout, with no clamping of its own. -/
def llmnrSocketDeadline (now timeoutNs : Int) : Int :=
  now + timeoutNs

/-- One observation of net.Resolver.LookupIPAddr plus the ctx.Err() check
that guards it (resolve.go lines 79-100). -/
structure UnicastEnv where
  ctxErr : Option String := none
  lookupRes : Except String (List NetIP) := .error "lookup failed"

/-- resolve.go lookupHost: fail fast on an expired context, propagate
resolver errors, keep only non-nil addresses, and error when none remain.
Returns the Go ([]net.IP, error) pair. -/
def lookupHost (e : UnicastEnv) : List NetIP × Option String :=
  match e.ctxErr with
  | some err => ([], some err)
  | none =>
    match e.lookupRes with
    | .error err => ([], some err)
    | .ok ipAddrs =>
      let ips := ipAddrs.filter fun ip => ip.isSome
      if ips.length = 0 then ([], some "no IPs returned")
      else (ips, none)

/-- One resource record in a parsed LLMNR answer section: an A record, an
AAAA record, any other type (skipped), or a record whose parse fails
(both ErrSectionDone and real parse errors stop the answer loop). -/
inductive RRec where
  | a (bytes : List Nat)
  | aaaa (bytes : List Nat)
  | other
  | errRec
deriving DecidableEq, Repr

/-- One datagram received on the multicast socket: either it fails
Start/SkipQuestion parsing (skipped), or it yields a list of records. -/
inductive Datagram where
  | malformed
  | wellFormed (recs : List RRec)
deriving DecidableEq, Repr

/-- How the receive loop ends: a timeout-class read error, or some other
read error (resolve.go lines 144-154). -/
inductive ReadTerminal where
  | timeout
  | fatal (err : String)
deriving DecidableEq, Repr

/-- The environment of one lookupLLMNR call: possible failures of each
setup step, then the received datagrams followed by the terminating read
result. -/
structure LLMNREnv where
  nameErr : String → Option String := fun _ => none
  packErr : Option String := none
  listenErr : Option String := none
  setDeadlineErr : Option String := none
  writeV4Err : Option String := none
  datagrams : List Datagram := []
  terminal : ReadTerminal := .timeout

/-- The answer-processing loop (resolve.go lines 163-183): collect A and
AAAA payloads, skip other record types, stop at the first parse error.
net.IP of a byte array is never nil, but the code's nil check is kept. -/
def collectRecs : List RRec → List NetIP
  | [] => []
  | .errRec :: _ => []
  | .a bytes :: rest =>
    let ip : NetIP := some bytes
    if ip = none then collectRecs rest else ip :: collectRecs rest
  | .aaaa bytes :: rest =>
    let ip : NetIP := some bytes
    if ip = none then collectRecs rest else ip :: collectRecs rest
  | .other :: rest => collectRecs rest

/-- One datagram's contribution (resolve.go lines 156-183). -/
def processDatagram : Datagram → List NetIP
  | .malformed => []
  | .wellFormed recs => collectRecs recs

/-- The fully-qualified query name (resolve.go lines 103-106). -/
def llmnrName (host : String) : String :=
  if goHasSuffix host "." then host else host ++ "."

/-- resolve.go lookupLLMNR: build and send the query, then collect
addresses from response datagrams until the read deadline; a timeout-class
error ends collection, any other read error is returned as the call's
error; zero collected addresses is the no-responses error; a nonempty
collection is deduplicated and returned.  Returns the Go pair. -/
def lookupLLMNR (env : LLMNREnv) (host : String) (timeoutNs : Int) :
    List NetIP × Option String :=
  match env.nameErr (llmnrName host) with
  | some err => ([], some err)
  | none =>
    match env.packErr with
    | some err => ([], some err)
    | none =>
      match env.listenErr with
      | some err => ([], some err)
      | none =>
        match env.setDeadlineErr with
        | some err => ([], some err)
        | none =>
          match env.writeV4Err with
          | some err => ([], some err)
          | none =>
            -- the IPv6 send is best-effort: its error is discarded
            let ips := (env.datagrams.map processDatagram).flatten
            match env.terminal with
            | .fatal err => ([], some err)
            | .timeout =>
              if ips.length = 0 then ([], some "no LLMNR responses")
              else (uniqueIPs ips, none)

/-- A network call made by resolveHost, in order. -/
inductive TierCall where
  | unicast (host : String)
  | multicast (host : String) (timeoutNs : Int)
deriving DecidableEq, Repr

/-- go: if err != nil { lastErr = err }. -/
def updErr (lastErr e : Option String) : Option String :=
  match e with
  | some err => some err
  | none => lastErr

/-- resolve.go line 72: the generic error used when no tier reported a
specific cause. -/
def genericErr (host : String) : String :=
  "no IP addresses found for " ++ host

/-- The environment of one resolveHost call: the ParseIP observation, one
unicast environment per queried name, one multicast environment per
queried name, and the elapsed time when remaining(deadline) is read. -/
structure ResolveEnv where
  parseIP : String → Option (List Nat)
  unicast : String → UnicastEnv
  multicast : String → LLMNREnv
  elapsedAtLLMNR : Int := 0

/-- resolve.go lines 70-76: the final decision once every tier has been
tried; ips0 is the first unicast call's address list. -/
def finalReturn (host : String) (ips0 : List NetIP) (lastErr : Option String)
    (trace : List TierCall) : (List NetIP × Option String) × List TierCall :=
  if ips0.length = 0 then
    (([], if lastErr = none then some (genericErr host) else lastErr), trace)
  else ((uniqueIPs ips0, none), trace)

/-- resolve.go lines 51-76: the two multicast tiers and the final
decision. -/
def multicastPhase (env : ResolveEnv) (host : String) (llmnrTimeout : Int)
    (ips0 : List NetIP) (lastErr0 : Option String) (trace0 : List TierCall) :
    (List NetIP × Option String) × List TierCall :=
  let m1 := lookupLLMNR (env.multicast host) host llmnrTimeout
  let trace1 := trace0 ++ [.multicast host llmnrTimeout]
  if 0 < m1.1.length then ((uniqueIPs m1.1, none), trace1)
  else
    let lastErr1 := updErr lastErr0 m1.2
    if goHasSuffix host ".local" then finalReturn host ips0 lastErr1 trace1
    else
      let m2 := lookupLLMNR (env.multicast (host ++ ".local")) (host ++ ".local")
        llmnrTimeout
      let trace2 := trace1 ++ [.multicast (host ++ ".local") llmnrTimeout]
      if 0 < m2.1.length then ((uniqueIPs m2.1, none), trace2)
      else finalReturn host ips0 (updErr lastErr1 m2.2) trace2

/-- resolve.go resolveHost: IP-literal fast path, then unicast on the exact
name, unicast on the ".local" name (guarded), multicast on both names
(guarded), sharing one deadline; the first tier with at least one address
returns its deduplicated addresses.  The second component records the
network calls actually made, in order. -/
def resolveHost (env : ResolveEnv) (host : String) (timeout : Int) :
    (List NetIP × Option String) × List TierCall :=
  match env.parseIP host with
  | some bytes => (([some bytes], none), [])
  | none =>
    let t := effectiveTimeout timeout
    let llmnrTimeout := engineLLMNRTimeout (t - env.elapsedAtLLMNR)
    let u1 := lookupHost (env.unicast host)
    if 0 < u1.1.length then ((uniqueIPs u1.1, none), [.unicast host])
    else
      let lastErr0 := updErr none u1.2
      if goHasSuffix host ".local" then
        multicastPhase env host llmnrTimeout u1.1 lastErr0 [.unicast host]
      else
        let u2 := lookupHost (env.unicast (host ++ ".local"))
        if 0 < u2.1.length then
          ((uniqueIPs u2.1, none), [.unicast host, .unicast (host ++ ".local")])
        else
          multicastPhase env host llmnrTimeout u1.1 (updErr lastErr0 u2.2)
            [.unicast host, .unicast (host ++ ".local")]

/-! ### Spec-side tier model (§4.6 of the spec): an ordered list of tiers,
run sequentially, the first tier with an address short-circuiting -/
/-- The tier list as §4.6 words it: unicast exact, unicast ".local"
(guarded), multicast exact, multicast ".local" (guarded), each paired with
its observed (addresses, error) result. -/
def specTiers (env : ResolveEnv) (host : String) (llmnrTimeout : Int) :
    List (TierCall × (List NetIP × Option String)) :=
  [(.unicast host, lookupHost (env.unicast host))] ++
  (if goHasSuffix host ".local" then []
   else [(.unicast (host ++ ".local"), lookupHost (env.unicast (host ++ ".local")))]) ++
  [(.multicast host llmnrTimeout, lookupLLMNR (env.multicast host) host llmnrTimeout)] ++
  (if goHasSuffix host ".local" then []
   else [(.multicast (host ++ ".local") llmnrTimeout,
     lookupLLMNR (env.multicast (host ++ ".local")) (host ++ ".local") llmnrTimeout)])

/-- Run the tiers in order: the first tier with at least one address wins
and its deduplicated addresses are returned, no later tier running; if all
fail, the error is the last specific cause, or the generic one. -/
def runTiers (host : String) :
    List (TierCall × (List NetIP × Option String)) → Option String →
      (List NetIP × Option String) × List TierCall
  | [], lastErr => (([], some (lastErr.getD (genericErr host))), [])
  | tier :: rest, lastErr =>
    if 0 < tier.2.1.length then ((uniqueIPs tier.2.1, none), [tier.1])
    else
      let r := runTiers host rest (updErr lastErr tier.2.2)
      (r.1, tier.1 :: r.2)

/-- The last specific cause among the tier errors, in tier order (the
effect of the repeated "if err != nil { lastErr = err }" updates). -/
def lastCause (errs : List (Option String)) : Option String :=
  errs.foldl updErr none

/-- A resolution environment in which every tier fails: no literal, unicast
lookups error, multicast collects nothing before the deadline. -/
def envAllFail : ResolveEnv where
  parseIP := fun _ => none
  unicast := fun _ => {}
  multicast := fun _ => {}

/-- A resolution environment in which the hostname is an IP literal. -/
def envLiteral : ResolveEnv where
  parseIP := fun _ => some [10, 0, 0, 5]
  unicast := fun _ => {}
  multicast := fun _ => {}

/-- A resolution environment in which the first unicast tier succeeds. -/
def envUnicastOk : ResolveEnv where
  parseIP := fun _ => none
  unicast := fun _ => { lookupRes := .ok [some [10, 0, 0, 7]] }
  multicast := fun _ => {}

/-- An LLMNR environment that receives one well-formed response carrying a
single A record and then times out. -/
def llmnrEnvOneAnswer : LLMNREnv where
  datagrams := [.wellFormed [.a [10, 0, 0, 9], .other]]

/-- An LLMNR environment whose read fails with a non-timeout error. -/
def llmnrEnvFatal : LLMNREnv where
  datagrams := [.wellFormed [.a [10, 0, 0, 9]]]
  terminal := .fatal "read udp: connection refused"

/-! ### Theorems -/

/-! ### Lemmas about uniqueIPs -/
theorem uniqueIPsLoop_not_none (l : List NetIP) :
    ∀ seen, none ∉ uniqueIPsLoop seen l := by
  induction l with
  | nil => intro seen; simp [uniqueIPsLoop]
  | cons ip rest ih =>
    intro seen
    by_cases h : ip = none
    · simpa [uniqueIPsLoop, h] using ih seen
    · by_cases hk : ipString ip ∈ seen
      · simpa [uniqueIPsLoop, h, hk] using ih seen
      · simp only [uniqueIPsLoop, if_neg h, if_neg hk, List.mem_cons, not_or]
        exact ⟨fun hx => h hx.symm, ih (ipString ip :: seen)⟩

theorem uniqueIPsLoop_sublist (l : List NetIP) :
    ∀ seen, (uniqueIPsLoop seen l).Sublist l := by
  induction l with
  | nil => intro seen; simp [uniqueIPsLoop]
  | cons ip rest ih =>
    intro seen
    by_cases h : ip = none
    · simpa [uniqueIPsLoop, h] using (ih seen).cons ip
    · by_cases hk : ipString ip ∈ seen
      · simpa [uniqueIPsLoop, h, hk] using (ih seen).cons ip
      · simpa [uniqueIPsLoop, h, hk] using (ih (ipString ip :: seen)).cons₂ ip

theorem uniqueIPsLoop_keys (l : List NetIP) :
    ∀ seen, ((uniqueIPsLoop seen l).map ipString).Nodup ∧
      ∀ k ∈ seen, k ∉ (uniqueIPsLoop seen l).map ipString := by
  induction l with
  | nil => intro seen; simp [uniqueIPsLoop]
  | cons ip rest ih =>
    intro seen
    by_cases h : ip = none
    · simpa [uniqueIPsLoop, h] using ih seen
    · by_cases hk : ipString ip ∈ seen
      · simpa [uniqueIPsLoop, h, hk] using ih seen
      · have ihx := ih (ipString ip :: seen)
        simp only [uniqueIPsLoop, if_neg h, if_neg hk, List.map_cons, List.nodup_cons,
          List.mem_cons, not_or]
        refine ⟨⟨ihx.2 _ (List.mem_cons_self _ _), ihx.1⟩, fun k hks => ?_⟩
        exact ⟨fun hek => hk (hek ▸ hks), ihx.2 k (List.mem_cons_of_mem _ hks)⟩

theorem uniqueIPsLoop_seen_congr (l : List NetIP) :
    ∀ seen seen', (∀ k, k ∈ seen ↔ k ∈ seen') →
      uniqueIPsLoop seen l = uniqueIPsLoop seen' l := by
  induction l with
  | nil => intro seen seen' _; rfl
  | cons ip rest ih =>
    intro seen seen' hs
    by_cases h : ip = none
    · simp [uniqueIPsLoop, h, ih seen seen' hs]
    · by_cases hk : ipString ip ∈ seen
      · simp [uniqueIPsLoop, h, hk, (hs _).mp hk, ih seen seen' hs]
      · have hk' : ipString ip ∉ seen' := fun hx => hk ((hs _).mpr hx)
        simp only [uniqueIPsLoop, if_neg h, if_neg hk, if_neg hk']
        refine congrArg _ (ih _ _ fun k => ?_)
        simp only [List.mem_cons]
        exact or_congr Iff.rfl (hs k)

theorem dedupe_foldl (l : List NetIP) :
    ∀ acc : List NetIP,
      l.foldl
        (fun acc ip =>
          if ip ≠ none ∧ ipString ip ∉ acc.map ipString then acc ++ [ip] else acc)
        acc
      = acc ++ uniqueIPsLoop (acc.map ipString) l := by
  induction l with
  | nil => intro acc; simp [uniqueIPsLoop]
  | cons ip rest ih =>
    intro acc
    by_cases h : ip = none
    · rw [List.foldl_cons, if_neg (by simp [h])]
      rw [ih acc]
      congr 1
      simp [uniqueIPsLoop, h]
    · by_cases hk : ipString ip ∈ acc.map ipString
      · rw [List.foldl_cons, if_neg (by simp [hk])]
        rw [ih acc]
        congr 1
        simp [uniqueIPsLoop, h, hk]
      · rw [List.foldl_cons, if_pos ⟨h, hk⟩, ih (acc ++ [ip])]
        have hmap : (acc ++ [ip]).map ipString = acc.map ipString ++ [ipString ip] := by
          simp
        rw [hmap,
          uniqueIPsLoop_seen_congr rest (acc.map ipString ++ [ipString ip])
            (ipString ip :: acc.map ipString) (fun k => by simp [or_comm])]
        simp [uniqueIPsLoop, h, hk]

theorem uniqueIPs_eq_dedupeSpec (ips : List NetIP) (h : 2 ≤ ips.length) :
    uniqueIPs ips = dedupeSpec ips := by
  rw [uniqueIPs, if_neg (by omega), dedupeSpec, dedupe_foldl]
  simp

theorem uniqueIPs_subset (ips : List NetIP) : ∀ x ∈ uniqueIPs ips, x ∈ ips := by
  intro x hx
  rw [uniqueIPs] at hx
  split at hx
  · exact hx
  · exact List.Sublist.mem hx (uniqueIPsLoop_sublist ips [])

theorem uniqueIPs_ne_nil (ips : List NetIP) (hne : ips ≠ [])
    (hs : ∀ x ∈ ips, x ≠ none) : uniqueIPs ips ≠ [] := by
  rw [uniqueIPs]
  split
  · exact hne
  · cases ips with
    | nil => exact absurd rfl hne
    | cons ip rest =>
      have hip : ip ≠ none := hs ip (List.mem_cons_self _ _)
      simp [uniqueIPsLoop, hip]

theorem joinSegs_ne_nil (segs : List (List Char)) (hne : segs ≠ [])
    (hs : ∀ s ∈ segs, s ≠ []) : joinSegs segs ≠ [] := by
  match segs with
  | [] => exact absurd rfl hne
  | [s] => exact hs s (List.mem_cons_self _ _)
  | s :: s2 :: rest =>
    show s ++ '/' :: joinSegs (s2 :: rest) ≠ []
    simp

theorem joinSegs_concat (s : List Char) (segs : List (List Char)) (hne : segs ≠ []) :
    joinSegs (segs ++ [s]) = joinSegs segs ++ '/' :: s := by
  match segs with
  | [] => exact absurd rfl hne
  | [a] => rfl
  | a :: b :: rest =>
    show a ++ '/' :: joinSegs ((b :: rest) ++ [s]) = (a ++ '/' :: joinSegs (b :: rest)) ++ '/' :: s
    rw [joinSegs_concat s (b :: rest) (by simp)]
    simp

theorem segsOut_concat (s : List Char) (segs : List (List Char)) (hne : segs ≠ []) :
    segsOut (segs ++ [s]) = s.reverse ++ '/' :: segsOut segs := by
  rw [segsOut, joinSegs_concat s segs hne]
  simp [segsOut]

theorem segsOut_single (s : List Char) : segsOut [s] = s.reverse ++ ['/'] := rfl

theorem segsOut_ne_nil (segs : List (List Char)) : segsOut segs ≠ [] := by
  rw [segsOut]
  simp

theorem segsOut_reverse (segs : List (List Char)) :
    (segsOut segs).reverse = '/' :: joinSegs segs := by
  rw [segsOut]
  simp

theorem mem_joinSegs (c : Char) (segs : List (List Char)) (hc : c ∈ joinSegs segs) :
    c = '/' ∨ ∃ s ∈ segs, c ∈ s := by
  match segs with
  | [] => simp [joinSegs] at hc
  | [s] => exact Or.inr ⟨s, List.mem_cons_self _ _, hc⟩
  | s :: s2 :: rest =>
    rw [show joinSegs (s :: s2 :: rest) = s ++ '/' :: joinSegs (s2 :: rest) from rfl] at hc
    rcases List.mem_append.mp hc with h | h
    · exact Or.inr ⟨s, List.mem_cons_self _ _, h⟩
    · rcases List.mem_cons.mp h with h | h
      · exact Or.inl h
      · rcases mem_joinSegs c (s2 :: rest) h with h | ⟨t, ht, hct⟩
        · exact Or.inl h
        · exact Or.inr ⟨t, List.mem_cons_of_mem _ ht, hct⟩

theorem joinSegs_head (segs : List (List Char)) (hne : segs ≠ [])
    (hs : ∀ s ∈ segs, goodSeg s) :
    ∃ c, (joinSegs segs).head? = some c ∧ c ≠ '/' := by
  match segs with
  | [] => exact absurd rfl hne
  | s :: rest =>
    have hg := hs s (List.mem_cons_self _ _)
    obtain ⟨c, cs, rfl⟩ : ∃ c cs, s = c :: cs := by
      cases s with
      | nil => exact absurd rfl hg.1
      | cons c cs => exact ⟨c, cs, rfl⟩
    have hco : (joinSegs ((c :: cs) :: rest)).head? = some c := by
      match rest with
      | [] => rfl
      | r :: rs => rfl
    exact ⟨c, hco, fun hcc => hg.2.1 (hcc ▸ List.mem_cons_self _ _)⟩

theorem joinSegs_getLast (segs : List (List Char)) (hne : segs ≠ [])
    (hs : ∀ s ∈ segs, goodSeg s) :
    ∃ c, (joinSegs segs).getLast? = some c ∧ c ≠ '/' := by
  rcases List.eq_nil_or_concat segs with h | ⟨init, s, rfl⟩
  · exact absurd h hne
  · rw [List.concat_eq_append]
    have hg : goodSeg s := hs s (by simp)
    obtain ⟨c, w, hrev⟩ : ∃ c w, s.reverse = c :: w := by
      cases hsr : s.reverse with
      | nil => exact absurd (by simpa using congrArg List.reverse hsr) hg.1
      | cons c w => exact ⟨c, w, rfl⟩
    have hcs : c ∈ s := by
      rw [← List.mem_reverse, hrev]
      exact List.mem_cons_self _ _
    refine ⟨c, ?_, fun hcc => hg.2.1 (hcc ▸ hcs)⟩
    rcases eq_or_ne init [] with rfl | hinit
    · simp only [List.nil_append]
      rw [List.getLast?_eq_head?_reverse, show joinSegs [s] = s from rfl, hrev]
      rfl
    · rw [joinSegs_concat s init hinit, List.getLast?_eq_head?_reverse]
      rw [List.reverse_append, List.reverse_cons, List.append_assoc]
      rw [List.head?_append_of_ne_nil _ (by rw [hrev]; simp)]
      rw [hrev]
      rfl

/-! ### Step lemmas for cleanCore -/
theorem cleanCore_nil (rooted : Bool) (out : List Char) (dotdot : Nat) :
    cleanCore rooted [] out dotdot = out :=
  cleanCore.eq_1 rooted out dotdot

theorem notDotCond (cs2 : List Char) :
    ¬ (('.' : Char) = '.' ∧ ('.' :: cs2 = [] ∨ ('.' :: cs2).head? = some '/')) := by
  rintro ⟨-, h | h⟩
  · exact List.cons_ne_nil _ _ h
  · rw [List.head?_cons] at h
    exact absurd h (by decide)

theorem cleanCore_slash (rooted : Bool) (cs out : List Char) (dotdot : Nat) :
    cleanCore rooted ('/' :: cs) out dotdot = cleanCore rooted cs out dotdot := by
  cases out with
  | nil => rw [cleanCore.eq_2, if_pos rfl]
  | cons d rest => rw [cleanCore.eq_3, if_pos rfl]

theorem cleanCore_dot (rooted : Bool) (cs out : List Char) (dotdot : Nat)
    (hcs : cs = [] ∨ cs.head? = some '/') :
    cleanCore rooted ('.' :: cs) out dotdot = cleanCore rooted cs out dotdot := by
  cases out with
  | nil => rw [cleanCore.eq_2, if_neg (by decide), if_pos ⟨rfl, hcs⟩]
  | cons d rest => rw [cleanCore.eq_3, if_neg (by decide), if_pos ⟨rfl, hcs⟩]

theorem cleanCore_ddot_pop (rooted : Bool) (cs2 : List Char) (c0 : Char)
    (rest : List Char) (dotdot : Nat) (hcs2 : cs2 = [] ∨ cs2.head? = some '/')
    (hlen : dotdot < (c0 :: rest).length) :
    cleanCore rooted ('.' :: '.' :: cs2) (c0 :: rest) dotdot
      = cleanCore rooted cs2 (cleanPop dotdot c0 rest) dotdot := by
  rw [cleanCore.eq_3, if_neg (by decide), if_neg (notDotCond cs2),
    if_pos ⟨rfl, rfl, hcs2⟩, if_pos hlen]
  rfl

theorem cleanCore_ddot_rooted_stay (cs2 out : List Char) (dotdot : Nat)
    (hcs2 : cs2 = [] ∨ cs2.head? = some '/') (hlen : ¬ dotdot < out.length) :
    cleanCore true ('.' :: '.' :: cs2) out dotdot = cleanCore true cs2 out dotdot := by
  cases out with
  | nil =>
    rw [cleanCore.eq_2, if_neg (by decide), if_neg (notDotCond cs2),
      if_pos ⟨rfl, rfl, hcs2⟩, if_neg hlen, if_neg (by simp)]
    rfl
  | cons d rest =>
    rw [cleanCore.eq_3, if_neg (by decide), if_neg (notDotCond cs2),
      if_pos ⟨rfl, rfl, hcs2⟩, if_neg hlen, if_neg (by simp)]
    rfl

theorem cleanCore_default (rooted : Bool) (c : Char) (cs out : List Char) (dotdot : Nat)
    (h1 : ¬ c = '/') (h2 : ¬ (c = '.' ∧ (cs = [] ∨ cs.head? = some '/')))
    (h3 : ¬ (c = '.' ∧ cs.head? = some '.' ∧ (cs.tail = [] ∨ cs.tail.head? = some '/'))) :
    cleanCore rooted (c :: cs) out dotdot
      = cleanCore rooted ((c :: cs).dropWhile (· ≠ '/'))
          (((c :: cs).takeWhile (· ≠ '/')).reverse ++
            (if (rooted = true ∧ out.length ≠ 1) ∨ (rooted = false ∧ out.length ≠ 0) then
              '/' :: out
            else out))
          dotdot := by
  cases out with
  | nil => rw [cleanCore.eq_2, if_neg h1, if_neg h2, if_neg h3]
  | cons d rest => rw [cleanCore.eq_3, if_neg h1, if_neg h2, if_neg h3]

/-- Behavior of the ".." backtracking loop on a buffer of the form
(segment chars, reversed) ++ '/' :: t: the segment and its slash are
removed, except that the root slash (t = []) is retained. -/
theorem cleanPop_over_seg (w : List Char) :
    ∀ c, c ≠ '/' → (∀ x ∈ w, x ≠ '/') → ∀ t : List Char,
      cleanPop 1 c (w ++ '/' :: t) = if t = [] then ['/'] else t := by
  induction w with
  | nil =>
    intro c hc _ t
    cases t with
    | nil =>
      rw [List.nil_append, cleanPop.eq_2, if_neg (by simp)]
      simp
    | cons d t' =>
      rw [List.nil_append, cleanPop.eq_2, if_pos ⟨by simp, hc⟩, cleanPop.eq_2,
        if_neg (by simp)]
      simp
  | cons a w' ih =>
    intro c hc hw t
    rw [List.cons_append, cleanPop.eq_2, if_pos ⟨by simp, hc⟩]
    exact ih a (hw a (List.mem_cons_self _ _)) (fun x hx => hw x (List.mem_cons_of_mem _ hx)) t

/-! ### The cleanCore invariant: rooted cleaning produces '/' plus good
segments -/
theorem dropWhile_head_slash (l : List Char) :
    l.dropWhile (· ≠ '/') = [] ∨ (l.dropWhile (· ≠ '/')).head? = some '/' := by
  induction l with
  | nil => exact Or.inl rfl
  | cons x xs ih =>
    by_cases hx : x = '/'
    · right
      rw [List.dropWhile_cons, if_neg (by simp [hx])]
      simp [hx]
    · rw [List.dropWhile_cons, if_pos (by simp [hx])]
      exact ih

theorem takeWhile_nil_cases (cs : List Char)
    (h : cs.takeWhile (· ≠ '/') = []) : cs = [] ∨ cs.head? = some '/' := by
  cases cs with
  | nil => exact Or.inl rfl
  | cons x xs =>
    rw [List.takeWhile_cons] at h
    right
    split at h
    · exact absurd h (by simp)
    · rename_i hx
      simp only [decide_eq_true_eq, Decidable.not_not] at hx
      simp [hx]

/-- The result of cleanPop in the rooted setting: removing the last segment
of the buffer (the root slash survives when it was the only segment). -/
theorem cleanPop_segsOut (init : List (List Char)) (s : List Char)
    (hs : s ≠ []) (hns : '/' ∉ s) :
    ∃ c0 w,
      segsOut (init ++ [s])
          = c0 :: (w ++ '/' :: (if init = [] then [] else segsOut init)) ∧
        cleanPop 1 c0 (w ++ '/' :: (if init = [] then [] else segsOut init))
          = segsOut init := by
  obtain ⟨c0, w, hrev⟩ : ∃ c0 w, s.reverse = c0 :: w := by
    cases hsr : s.reverse with
    | nil => exact absurd (by simpa using congrArg List.reverse hsr) hs
    | cons c0 w => exact ⟨c0, w, rfl⟩
  have hmem : ∀ x ∈ c0 :: w, x ≠ '/' := by
    intro x hx hx'
    exact hns (hx' ▸ (List.mem_reverse.mp (hrev ▸ hx)))
  refine ⟨c0, w, ?_, ?_⟩
  · rcases eq_or_ne init [] with rfl | hinit
    · rw [if_pos rfl, List.nil_append, segsOut_single, hrev]
      simp
    · rw [if_neg hinit, segsOut_concat s init hinit, hrev]
      simp
  · rw [cleanPop_over_seg w c0 (hmem c0 (List.mem_cons_self _ _))
      (fun x hx => hmem x (List.mem_cons_of_mem _ hx))]
    rcases eq_or_ne init [] with rfl | hinit
    · rw [if_pos rfl, if_pos rfl]
      rfl
    · rw [if_neg hinit, if_neg (segsOut_ne_nil init)]

theorem segsOut_len_one (segs : List (List Char)) (hs : ∀ s ∈ segs, goodSeg s) :
    (segsOut segs).length = 1 ↔ segs = [] := by
  constructor
  · intro h
    by_contra hne
    have := joinSegs_ne_nil segs hne (fun s hsm => (hs s hsm).1)
    rw [segsOut, List.length_append, List.length_reverse] at h
    simp only [List.length_cons, List.length_nil] at h
    cases hj : joinSegs segs with
    | nil => exact this hj
    | cons a l => rw [hj] at h; simp at h
  · rintro rfl
    rfl

/-- Appending one path element in rooted mode: the buffer update of
cleanCore's default branch denotes segs ++ [seg]. -/
theorem out_append_seg (segs : List (List Char)) (hsegs : ∀ s ∈ segs, goodSeg s)
    (seg : List Char) :
    (seg.reverse ++
        (if (true = true ∧ (segsOut segs).length ≠ 1) ∨
            (true = false ∧ (segsOut segs).length ≠ 0) then
          '/' :: segsOut segs
        else segsOut segs)) = segsOut (segs ++ [seg]) := by
  rcases eq_or_ne segs [] with rfl | hne
  · rw [if_neg (by simp [segsOut, joinSegs])]
    rfl
  · rw [if_pos (Or.inl ⟨rfl, fun hx => hne ((segsOut_len_one segs hsegs).mp hx)⟩),
      segsOut_concat seg segs hne]

/-- Main invariant: running cleanCore in rooted mode with dotdot = 1 on any
backslash-free input, starting from a buffer denoting good segments, ends in
a buffer denoting good segments. -/
theorem cleanCore_inv (n : Nat) :
    ∀ inp : List Char, inp.length ≤ n → '\\' ∉ inp →
      ∀ segs : List (List Char), (∀ s ∈ segs, goodSeg s) →
        ∃ segs' : List (List Char), (∀ s ∈ segs', goodSeg s) ∧
          cleanCore true inp (segsOut segs) 1 = segsOut segs' := by
  induction n with
  | zero =>
    intro inp hlen _ segs hsegs
    cases inp with
    | nil => exact ⟨segs, hsegs, cleanCore_nil _ _ _⟩
    | cons c cs => exact absurd hlen (by simp)
  | succ n ih =>
    intro inp hlen hbs segs hsegs
    cases inp with
    | nil => exact ⟨segs, hsegs, cleanCore_nil _ _ _⟩
    | cons c cs =>
      have hlcs : cs.length ≤ n := by
        simp only [List.length_cons] at hlen
        omega
      have hbsc : ¬ ('\\' : Char) = c := fun hx => hbs (hx ▸ List.mem_cons_self _ _)
      have hbs2 : '\\' ∉ cs := fun hx => hbs (List.mem_cons_of_mem _ hx)
      by_cases h1 : c = '/'
      · subst h1
        rw [cleanCore_slash]
        exact ih cs hlcs hbs2 segs hsegs
      by_cases h2 : c = '.' ∧ (cs = [] ∨ cs.head? = some '/')
      · obtain ⟨hc, hcs⟩ := h2
        subst hc
        rw [cleanCore_dot _ _ _ _ hcs]
        exact ih cs hlcs hbs2 segs hsegs
      by_cases h3 : c = '.' ∧ cs.head? = some '.' ∧ (cs.tail = [] ∨ cs.tail.head? = some '/')
      · obtain ⟨hc, hh, ht⟩ := h3
        subst hc
        obtain ⟨cs2, rfl⟩ : ∃ cs2, cs = '.' :: cs2 := by
          cases cs with
          | nil => simp at hh
          | cons x xs =>
            rw [List.head?_cons, Option.some.injEq] at hh
            exact ⟨xs, by rw [hh]⟩
        have hcs2 : cs2 = [] ∨ cs2.head? = some '/' := ht
        have hl2 : cs2.length ≤ n := by
          simp only [List.length_cons] at hlcs
          omega
        have hbs3 : '\\' ∉ cs2 := fun hx => hbs2 (List.mem_cons_of_mem _ hx)
        rcases List.eq_nil_or_concat segs with rfl | ⟨init, s, hconcat⟩
        · rw [show segsOut [] = ['/'] from rfl,
            cleanCore_ddot_rooted_stay _ _ _ hcs2 (by simp)]
          exact ih cs2 hl2 hbs3 [] (by simp)
        · rw [List.concat_eq_append] at hconcat
          subst hconcat
          have hgs : goodSeg s := hsegs s (by simp)
          obtain ⟨c0, w, hout, hpop⟩ := cleanPop_segsOut init s hgs.1 hgs.2.1
          rw [hout, cleanCore_ddot_pop _ _ _ _ _ hcs2 (by simp), hpop]
          exact ih cs2 hl2 hbs3 init
            (fun t htm => hsegs t (List.mem_append_left _ htm))
      · -- default: a real path element
        rw [cleanCore_default _ _ _ _ _ h1 h2 h3]
        set seg := (c :: cs).takeWhile (· ≠ '/') with hsegdef
        have hsegne : seg ≠ [] := by
          rw [hsegdef, List.takeWhile_cons, if_pos (by simp [h1])]
          simp
        have hsegmem : ∀ x ∈ seg, x ∈ c :: cs := by
          intro x hx
          have := List.takeWhile_append_dropWhile (fun x => decide (x ≠ '/')) (c :: cs)
          rw [← this]
          exact List.mem_append_left _ hx
        have hsegslash : '/' ∉ seg := by
          intro hx
          have := List.mem_takeWhile_imp hx
          simp at this
        have hsegbs : '\\' ∉ seg := fun hx => hbs (hsegmem _ hx)
        have hsegdot : seg ≠ ['.'] := by
          intro hx
          rw [hsegdef, List.takeWhile_cons, if_pos (by simp [h1])] at hx
          have hc : c = '.' := (List.cons.injEq _ _ _ _ ▸ hx).1
          have htw : cs.takeWhile (· ≠ '/') = [] := (List.cons.injEq _ _ _ _ ▸ hx).2
          exact h2 ⟨hc, takeWhile_nil_cases cs htw⟩
        have hsegddot : seg ≠ ['.', '.'] := by
          intro hx
          rw [hsegdef, List.takeWhile_cons, if_pos (by simp [h1])] at hx
          have hc : c = '.' := (List.cons.injEq _ _ _ _ ▸ hx).1
          have htw : cs.takeWhile (· ≠ '/') = ['.'] := (List.cons.injEq _ _ _ _ ▸ hx).2
          obtain ⟨x, xs, rfl⟩ : ∃ x xs, cs = x :: xs := by
            cases cs with
            | nil => simp at htw
            | cons x xs => exact ⟨x, xs, rfl⟩
          rw [List.takeWhile_cons] at htw
          split at htw
          · have hxd : x = '.' := (List.cons.injEq _ _ _ _ ▸ htw).1
            have htw2 : xs.takeWhile (· ≠ '/') = [] := (List.cons.injEq _ _ _ _ ▸ htw).2
            exact h3 ⟨hc, by simp [hxd], by simpa using takeWhile_nil_cases xs htw2⟩
          · exact absurd htw (by simp)
        have hgseg : goodSeg seg := ⟨hsegne, hsegslash, hsegbs, hsegdot, hsegddot⟩
        rw [out_append_seg segs hsegs seg]
        have hgood2 : ∀ t ∈ segs ++ [seg], goodSeg t := by
          intro t htm
          rcases List.mem_append.mp htm with htm | htm
          · exact hsegs t htm
          · rw [List.mem_singleton.mp htm]
            exact hgseg
        rcases dropWhile_head_slash (c :: cs) with hdrop | hdrop
        · rw [hdrop, cleanCore_nil]
          exact ⟨segs ++ [seg], hgood2, rfl⟩
        · obtain ⟨d, rest', hdeq⟩ : ∃ d rest', (c :: cs).dropWhile (· ≠ '/') = d :: rest' := by
            cases hx : (c :: cs).dropWhile (· ≠ '/') with
            | nil => rw [hx] at hdrop; simp at hdrop
            | cons d rest' => exact ⟨d, rest', rfl⟩
          have hd : d = '/' := by
            rw [hdeq, List.head?_cons, Option.some.injEq] at hdrop
            exact hdrop
          subst hd
          rw [hdeq, cleanCore_slash]
          have hlrest : rest'.length ≤ n := by
            have hsplit := List.takeWhile_append_dropWhile (fun x => decide (x ≠ '/')) (c :: cs)
            have hlen2 := congrArg List.length hsplit
            rw [List.length_append, hdeq] at hlen2
            have hsegpos : 0 < seg.length := List.length_pos.mpr hsegne
            simp only [List.length_cons] at hlen2 hlen
            rw [hsegdef] at hsegpos
            omega
          have hbsrest : '\\' ∉ rest' := by
            intro hx
            apply hbs
            have hsplit := List.takeWhile_append_dropWhile (fun x => decide (x ≠ '/')) (c :: cs)
            rw [← hsplit, hdeq]
            exact List.mem_append_right _ (List.mem_cons_of_mem _ hx)
          exact ih rest' hlrest hbsrest (segs ++ [seg]) hgood2

/-! ### From cleanCore to normalizeRemotePath -/
theorem pathClean_rooted (p2 : List Char) (hbs : '\\' ∉ p2) :
    ∃ segs, (∀ s ∈ segs, goodSeg s) ∧
      pathClean ⟨'/' :: p2⟩ = ⟨'/' :: joinSegs segs⟩ := by
  obtain ⟨segs, hsegs, heq⟩ := cleanCore_inv p2.length p2 le_rfl hbs [] (by simp)
  refine ⟨segs, hsegs, ?_⟩
  show (let out := if '/' = '/' then cleanCore true p2 ['/'] 1
          else cleanCore false ('/' :: p2) [] 0
        if out = [] then "." else ⟨out.reverse⟩) = _
  rw [if_pos rfl]
  rw [show (['/'] : List Char) = segsOut [] from rfl, heq,
    if_neg (segsOut_ne_nil segs), segsOut_reverse]

theorem replaceBS_no_bs (p : String) : '\\' ∉ (replaceBS p).data := by
  intro h
  rw [replaceBS] at h
  obtain ⟨c, _, heq⟩ := List.mem_map.mp h
  split at heq
  · exact absurd heq (by decide)
  · rename_i hc
    exact hc heq

theorem stripLead_no_bs (p : String) (h : '\\' ∉ p.data) :
    '\\' ∉ (stripLead p).data := by
  rw [stripLead]
  split
  · intro hx
    exact h (List.mem_of_mem_tail hx)
  · exact h

theorem normalizeRemotePath_shape (p : String) :
    normalizeRemotePath p = "." ∨
      ∃ segs, segs ≠ [] ∧ (∀ s ∈ segs, goodSeg s) ∧
        (normalizeRemotePath p).data = joinSegs segs := by
  by_cases hp : p = ""
  · left
    rw [normalizeRemotePath, if_pos hp]
  · rw [normalizeRemotePath, if_neg hp]
    have hbs : '\\' ∉ (stripLead (replaceBS p)).data :=
      stripLead_no_bs _ (replaceBS_no_bs p)
    have hsplit : ("/" ++ stripLead (replaceBS p) : String)
        = ⟨'/' :: (stripLead (replaceBS p)).data⟩ :=
      String.ext (by rw [String.data_append]; rfl)
    rw [hsplit]
    obtain ⟨segs, hsegs, hclean⟩ := pathClean_rooted _ hbs
    rw [hclean, stripRoot]
    rcases eq_or_ne segs [] with rfl | hne
    · left
      have h0 : (⟨'/' :: joinSegs []⟩ : String) = "/" := by decide
      rw [if_pos (Or.inl h0)]
    · right
      have hJ : joinSegs segs ≠ [] :=
        joinSegs_ne_nil segs hne (fun s hsm => (hsegs s hsm).1)
      rw [if_neg ?hne1, if_pos (by rw [List.head?_cons])]
      · exact ⟨segs, hne, hsegs, rfl⟩
      case hne1 =>
        rintro (h | h)
        · have := congrArg String.data h
          simp only at this
          exact hJ (List.cons.injEq _ _ _ _ ▸ this).2
        · have := congrArg String.data h
          simp only at this
          exact absurd (List.cons.injEq _ _ _ _ ▸ this).1 (by decide)

theorem takeWhile_all_ne (s : List Char) (hs : ∀ x ∈ s, x ≠ '/') :
    s.takeWhile (· ≠ '/') = s ∧ s.dropWhile (· ≠ '/') = [] := by
  induction s with
  | nil => exact ⟨rfl, rfl⟩
  | cons a s' ih =>
    have ha : a ≠ '/' := hs a (List.mem_cons_self _ _)
    have ih2 := ih (fun x hx => hs x (List.mem_cons_of_mem _ hx))
    constructor
    · rw [List.takeWhile_cons, if_pos (by simpa using ha), ih2.1]
    · rw [List.dropWhile_cons, if_pos (by simpa using ha), ih2.2]

theorem takeWhile_over_seg (s : List Char) (hs : ∀ x ∈ s, x ≠ '/') (t : List Char) :
    (s ++ '/' :: t).takeWhile (· ≠ '/') = s ∧
      (s ++ '/' :: t).dropWhile (· ≠ '/') = '/' :: t := by
  induction s with
  | nil =>
    constructor
    · rw [List.nil_append, List.takeWhile_cons, if_neg (by simp)]
    · rw [List.nil_append, List.dropWhile_cons, if_neg (by simp)]
  | cons a s' ih =>
    have ha : a ≠ '/' := hs a (List.mem_cons_self _ _)
    have ih2 := ih (fun x hx => hs x (List.mem_cons_of_mem _ hx))
    constructor
    · rw [List.cons_append, List.takeWhile_cons, if_pos (by simpa using ha), ih2.1]
    · rw [List.cons_append, List.dropWhile_cons, if_pos (by simpa using ha), ih2.2]

/-- cleanCore maps an already-canonical input onto the corresponding
segments appended to the accumulator: cleaning is the identity on
canonical paths. -/
theorem cleanCore_canonical (segs : List (List Char)) :
    (∀ s ∈ segs, goodSeg s) →
      ∀ acc : List (List Char), (∀ s ∈ acc, goodSeg s) →
        cleanCore true (joinSegs segs) (segsOut acc) 1 = segsOut (acc ++ segs) := by
  induction segs with
  | nil =>
    intro _ acc _
    rw [show joinSegs [] = [] from rfl, cleanCore_nil, List.append_nil]
  | cons s rest ihr =>
    intro hgood acc hacc
    have hg : goodSeg s := hgood s (List.mem_cons_self _ _)
    obtain ⟨c, s', rfl⟩ : ∃ c s', s = c :: s' := by
      cases s with
      | nil => exact absurd rfl hg.1
      | cons c s' => exact ⟨c, s', rfl⟩
    have h1 : ¬ c = '/' := fun hx => hg.2.1 (hx ▸ List.mem_cons_self _ _)
    have hs'slash : '/' ∉ s' := fun hx => hg.2.1 (List.mem_cons_of_mem _ hx)
    cases rest with
    | nil =>
      rw [show joinSegs [c :: s'] = c :: s' from rfl]
      have h2 : ¬ (c = '.' ∧ (s' = [] ∨ s'.head? = some '/')) := by
        rintro ⟨hc, hd | hd⟩
        · exact hg.2.2.2.1 (by rw [hc, hd])
        · refine hs'slash ?_
          cases s' with
          | nil => simp at hd
          | cons a t =>
            rw [List.head?_cons, Option.some.injEq] at hd
            exact hd ▸ List.mem_cons_self _ _
      have h3 : ¬ (c = '.' ∧ s'.head? = some '.' ∧
          (s'.tail = [] ∨ s'.tail.head? = some '/')) := by
        rintro ⟨hc, hh, ht⟩
        obtain ⟨s'', rfl⟩ : ∃ s'', s' = '.' :: s'' := by
          cases s' with
          | nil => simp at hh
          | cons a t =>
            rw [List.head?_cons, Option.some.injEq] at hh
            exact ⟨t, by rw [hh]⟩
        rcases ht with ht | ht
        · exact hg.2.2.2.2 (by rw [hc, show ('.' :: s'').tail = s'' from rfl] at *; rw [ht])
        · refine hs'slash (List.mem_cons_of_mem _ ?_)
          cases s'' with
          | nil => simp at ht
          | cons b t =>
            rw [show ('.' :: b :: t).tail = b :: t from rfl, List.head?_cons,
              Option.some.injEq] at ht
            exact ht ▸ List.mem_cons_self _ _
      rw [cleanCore_default _ _ _ _ _ h1 h2 h3]
      have htw := takeWhile_all_ne (c :: s')
        (fun x hx hx' => hg.2.1 (hx' ▸ hx))
      rw [htw.1, htw.2, out_append_seg acc hacc (c :: s'), cleanCore_nil]
    | cons s2 rest2 =>
      rw [show joinSegs ((c :: s') :: s2 :: rest2)
          = (c :: s') ++ '/' :: joinSegs (s2 :: rest2) from rfl]
      rw [show ((c :: s') ++ '/' :: joinSegs (s2 :: rest2))
          = c :: (s' ++ '/' :: joinSegs (s2 :: rest2)) from rfl]
      have h2 : ¬ (c = '.' ∧ (s' ++ '/' :: joinSegs (s2 :: rest2) = [] ∨
          (s' ++ '/' :: joinSegs (s2 :: rest2)).head? = some '/')) := by
        rintro ⟨hc, hd | hd⟩
        · simp at hd
        · cases s' with
          | nil =>
            exact hg.2.2.2.1 (by rw [hc])
          | cons a t =>
            rw [List.cons_append, List.head?_cons, Option.some.injEq] at hd
            exact hs'slash (hd ▸ List.mem_cons_self _ _)
      have h3 : ¬ (c = '.' ∧ (s' ++ '/' :: joinSegs (s2 :: rest2)).head? = some '.' ∧
          ((s' ++ '/' :: joinSegs (s2 :: rest2)).tail = [] ∨
            (s' ++ '/' :: joinSegs (s2 :: rest2)).tail.head? = some '/')) := by
        rintro ⟨hc, hh, ht⟩
        cases s' with
        | nil =>
          rw [List.nil_append, List.head?_cons, Option.some.injEq] at hh
          exact absurd hh (by decide)
        | cons a t =>
          rw [List.cons_append, List.head?_cons, Option.some.injEq] at hh
          cases t with
          | nil =>
            exact hg.2.2.2.2 (by rw [hc, hh])
          | cons b t' =>
            rw [show ((a :: b :: t' ++ '/' :: joinSegs (s2 :: rest2))).tail
                = b :: (t' ++ '/' :: joinSegs (s2 :: rest2)) from rfl] at ht
            rcases ht with ht | ht
            · simp at ht
            · rw [List.head?_cons, Option.some.injEq] at ht
              apply hs'slash
              rw [← ht]
              exact List.mem_cons_of_mem _ (List.mem_cons_self _ _)
      rw [cleanCore_default _ _ _ _ _ h1 h2 h3]
      have htw := takeWhile_over_seg (c :: s')
        (fun x hx hx' => hg.2.1 (hx' ▸ hx)) (joinSegs (s2 :: rest2))
      rw [show (c :: (s' ++ '/' :: joinSegs (s2 :: rest2)))
          = (c :: s') ++ '/' :: joinSegs (s2 :: rest2) from rfl]
      rw [htw.1, htw.2, out_append_seg acc hacc (c :: s'), cleanCore_slash]
      rw [ihr (fun t htm => hgood t (List.mem_cons_of_mem _ htm)) (acc ++ [c :: s'])
        (by
          intro t htm
          rcases List.mem_append.mp htm with htm | htm
          · exact hacc t htm
          · rw [List.mem_singleton.mp htm]
            exact hg)]
      rw [List.append_assoc]
      rfl

/-- normalizeRemotePath is the identity on nonempty canonical relative
paths. -/
theorem normalize_canonical (segs : List (List Char)) (hne : segs ≠ [])
    (hsegs : ∀ s ∈ segs, goodSeg s) :
    normalizeRemotePath ⟨joinSegs segs⟩ = ⟨joinSegs segs⟩ := by
  have hJ : joinSegs segs ≠ [] :=
    joinSegs_ne_nil segs hne (fun s hsm => (hsegs s hsm).1)
  have hp : (⟨joinSegs segs⟩ : String) ≠ "" := by
    intro h
    exact hJ (congrArg String.data h)
  rw [normalizeRemotePath, if_neg hp]
  have hnb : ∀ c ∈ joinSegs segs, ¬ c = '\\' := by
    intro c hc
    rcases mem_joinSegs c segs hc with rfl | ⟨s, hsm, hcs⟩
    · decide
    · exact fun h => (hsegs s hsm).2.2.1 (h ▸ hcs)
  have hrb : replaceBS ⟨joinSegs segs⟩ = ⟨joinSegs segs⟩ := by
    rw [replaceBS]
    refine congrArg String.mk ?_
    have := List.map_congr_left (l := joinSegs segs)
      (f := fun c => if c = '\\' then '/' else c) (g := id)
      (fun a ha => by simp [hnb a ha])
    rw [this, List.map_id]
  obtain ⟨c0, hhead, hc0⟩ := joinSegs_head segs hne hsegs
  have hsl : stripLead ⟨joinSegs segs⟩ = ⟨joinSegs segs⟩ := by
    rw [stripLead, if_neg]
    intro h
    rw [show (⟨joinSegs segs⟩ : String).data = joinSegs segs from rfl, hhead,
      Option.some.injEq] at h
    exact hc0 h
  rw [hrb, hsl]
  have hsplit : ("/" ++ (⟨joinSegs segs⟩ : String)) = ⟨'/' :: joinSegs segs⟩ :=
    String.ext (by rw [String.data_append]; rfl)
  rw [hsplit]
  have hpc : pathClean ⟨'/' :: joinSegs segs⟩ = ⟨'/' :: joinSegs segs⟩ := by
    show (let out := if '/' = '/' then cleanCore true (joinSegs segs) ['/'] 1
            else cleanCore false ('/' :: joinSegs segs) [] 0
          if out = [] then "." else ⟨out.reverse⟩) = _
    rw [if_pos rfl, show (['/'] : List Char) = segsOut [] from rfl,
      cleanCore_canonical segs hsegs [] (by simp), List.nil_append,
      if_neg (segsOut_ne_nil segs), segsOut_reverse]
  rw [hpc, stripRoot, if_neg ?hcond, if_pos (by rw [List.head?_cons])]
  · rfl
  case hcond =>
    rintro (h | h)
    · have := congrArg String.data h
      simp only at this
      exact hJ (List.cons.injEq _ _ _ _ ▸ this).2
    · have := congrArg String.data h
      simp only at this
      exact absurd (List.cons.injEq _ _ _ _ ▸ this).1 (by decide)

/-- C8: for every input, normalizeRemotePath returns either "." (in
particular for "", "." and "/") or a nonempty slash-separated relative path
that does not start with "/", does not end with a slash, and contains no
empty, "." or ".." segments; ".." segments collapse toward the root (e.g.
"../a" normalizes to "a") instead of escaping above it or failing. -/
theorem c8_normalizeRemotePath_canonical (p : String) :
    (normalizeRemotePath "" = "." ∧ normalizeRemotePath "." = "." ∧
      normalizeRemotePath "/" = "." ∧ normalizeRemotePath "../a" = "a") ∧
    (normalizeRemotePath p = "." ∨
      ((normalizeRemotePath p).data ≠ [] ∧
        (normalizeRemotePath p).data.head? ≠ some '/' ∧
        (normalizeRemotePath p).data.getLast? ≠ some '/' ∧
        ∃ segs, segs ≠ [] ∧ (∀ s ∈ segs, goodSeg s) ∧
          (normalizeRemotePath p).data = joinSegs segs)) := by
  have heval : normalizeRemotePath "" = "." ∧ normalizeRemotePath "." = "." ∧
      normalizeRemotePath "/" = "." ∧ normalizeRemotePath "../a" = "a" := by
    refine ⟨?_, ?_, ?_, ?_⟩ <;>
      simp [normalizeRemotePath, replaceBS, stripLead, stripRoot, pathClean,
        cleanCore, cleanPop]
  refine ⟨heval, ?_⟩
  rcases normalizeRemotePath_shape p with h | ⟨segs, hne, hsegs, hdata⟩
  · exact Or.inl h
  · right
    have hJ : joinSegs segs ≠ [] :=
      joinSegs_ne_nil segs hne (fun s hsm => (hsegs s hsm).1)
    obtain ⟨c0, hhead, hc0⟩ := joinSegs_head segs hne hsegs
    obtain ⟨c1, hlast, hc1⟩ := joinSegs_getLast segs hne hsegs
    refine ⟨by rw [hdata]; exact hJ, ?_, ?_, segs, hne, hsegs, hdata⟩
    · rw [hdata, hhead]
      intro h
      rw [Option.some.injEq] at h
      exact hc0 h
    · rw [hdata, hlast]
      intro h
      rw [Option.some.injEq] at h
      exact hc1 h

/-- C9: normalizeRemotePath is idempotent: normalizing an already-normalized
path returns it unchanged. -/
theorem c9_normalizeRemotePath_idempotent (p : String) :
    normalizeRemotePath (normalizeRemotePath p) = normalizeRemotePath p := by
  rcases normalizeRemotePath_shape p with h | ⟨segs, hne, hsegs, hdata⟩
  · rw [h]
    simp [normalizeRemotePath, replaceBS, stripLead, stripRoot, pathClean,
      cleanCore]
  · rw [String.ext hdata, normalize_canonical segs hne hsegs]

theorem optFinal (e : Option String) (g : String) :
    (if e = none then some g else e) = some (e.getD g) := by
  cases e <;> simp

/-- resolveHost refines the spec's tier state machine: on a non-literal
hostname it behaves exactly like running the ordered tier list. -/
theorem resolveHost_eq_runTiers (env : ResolveEnv) (host : String) (timeout : Int)
    (hp : env.parseIP host = none) :
    resolveHost env host timeout
      = runTiers host
          (specTiers env host
            (engineLLMNRTimeout (effectiveTimeout timeout - env.elapsedAtLLMNR)))
          none := by
  by_cases hs : goHasSuffix host ".local" = true <;>
    rcases Nat.eq_zero_or_pos (lookupHost (env.unicast host)).1.length with hu1 | hu1 <;>
    rcases Nat.eq_zero_or_pos
      (lookupHost (env.unicast (host ++ ".local"))).1.length with hu2 | hu2 <;>
    rcases Nat.eq_zero_or_pos
      (lookupLLMNR (env.multicast host) host
        (engineLLMNRTimeout (effectiveTimeout timeout - env.elapsedAtLLMNR))).1.length
      with hm1 | hm1 <;>
    rcases Nat.eq_zero_or_pos
      (lookupLLMNR (env.multicast (host ++ ".local")) (host ++ ".local")
        (engineLLMNRTimeout (effectiveTimeout timeout - env.elapsedAtLLMNR))).1.length
      with hm2 | hm2 <;>
    simp [resolveHost, hp, specTiers, runTiers, multicastPhase, finalReturn,
      hs, hu1, hu2, hm1, hm2, updErr, optFinal]

theorem lookupHost_no_none (e : UnicastEnv) :
    ∀ ip ∈ (lookupHost e).1, ip ≠ none := by
  intro ip hip
  rw [lookupHost] at hip
  split at hip
  · simp at hip
  · split at hip
    · simp at hip
    · dsimp only at hip
      split at hip
      · simp at hip
      · have := List.of_mem_filter hip
        simp only [Option.isSome_iff_ne_none] at this
        exact this

theorem collectRecs_no_none (recs : List RRec) :
    ∀ ip ∈ collectRecs recs, ip ≠ none := by
  induction recs with
  | nil => intro ip hip; simp [collectRecs] at hip
  | cons r rest ih =>
    intro ip hip
    match r with
    | .errRec => simp [collectRecs] at hip
    | .other => exact ih ip (by simpa [collectRecs] using hip)
    | .a bytes =>
      rw [show collectRecs (.a bytes :: rest)
          = some bytes :: collectRecs rest from by simp [collectRecs]] at hip
      rcases List.mem_cons.mp hip with rfl | hip
      · simp
      · exact ih ip hip
    | .aaaa bytes =>
      rw [show collectRecs (.aaaa bytes :: rest)
          = some bytes :: collectRecs rest from by simp [collectRecs]] at hip
      rcases List.mem_cons.mp hip with rfl | hip
      · simp
      · exact ih ip hip

theorem lookupLLMNR_no_none (env : LLMNREnv) (host : String) (t : Int) :
    ∀ ip ∈ (lookupLLMNR env host t).1, ip ≠ none := by
  intro ip hip
  rw [lookupLLMNR] at hip
  split at hip
  · simp at hip
  · split at hip
    · simp at hip
    · split at hip
      · simp at hip
      · split at hip
        · simp at hip
        · split at hip
          · simp at hip
          · split at hip
            · simp at hip
            · dsimp only at hip
              split at hip
              · simp at hip
              · have hsub := uniqueIPs_subset _ ip hip
                obtain ⟨d, hd, hmem⟩ := List.mem_flatten.mp hsub
                obtain ⟨dg, hdg, rfl⟩ := List.mem_map.mp hd
                match dg with
                | .malformed => simp [processDatagram] at hmem
                | .wellFormed recs => exact collectRecs_no_none recs ip hmem

theorem runTiers_cases (host : String) (L : List (TierCall × (List NetIP × Option String)))
    (hL : ∀ tier ∈ L, ∀ ip ∈ tier.2.1, ip ≠ none) :
    ∀ lastErr : Option String,
      ((runTiers host L lastErr).1.2 = none → (runTiers host L lastErr).1.1 ≠ []) ∧
      (∀ e, (runTiers host L lastErr).1.2 = some e →
        (runTiers host L lastErr).1.1 = [] ∧
        e = ((L.map fun tier => tier.2.2).foldl updErr lastErr).getD (genericErr host)) := by
  induction L with
  | nil =>
    intro lastErr
    refine ⟨fun h => by simp [runTiers] at h, fun e he => ?_⟩
    rw [runTiers] at he ⊢
    simp only [Option.some.injEq] at he
    exact ⟨rfl, by rw [← he]; rfl⟩
  | cons tier rest ih =>
    intro lastErr
    by_cases htier : 0 < tier.2.1.length
    · rw [runTiers, if_pos htier]
      refine ⟨fun _ => ?_, fun e he => by simp at he⟩
      exact uniqueIPs_ne_nil tier.2.1 (by intro hx; rw [hx] at htier; simp at htier)
        (hL tier (List.mem_cons_self _ _))
    · rw [runTiers, if_neg htier]
      have ihx := ih (fun t htm => hL t (List.mem_cons_of_mem _ htm))
        (updErr lastErr tier.2.2)
      refine ⟨fun h => ihx.1 h, fun e he => ?_⟩
      refine ⟨(ihx.2 e he).1, ?_⟩
      rw [(ihx.2 e he).2, List.map_cons, List.foldl_cons]

/-- C1: resolveHost never returns an empty address list together with a nil
error: every successful return carries at least one address, and when every
tier fails the returned error is the last specific underlying cause, or the
generic "no IP addresses found for host" error when no tier reported a
specific cause. -/
theorem c1_resolveHost_no_empty_success (env : ResolveEnv) (host : String)
    (timeout : Int) :
    ((resolveHost env host timeout).1.2 = none →
      (resolveHost env host timeout).1.1 ≠ []) ∧
    (∀ e, (resolveHost env host timeout).1.2 = some e →
      (resolveHost env host timeout).1.1 = [] ∧
      e = (lastCause ((specTiers env host
            (engineLLMNRTimeout (effectiveTimeout timeout - env.elapsedAtLLMNR))).map
          fun tier => tier.2.2)).getD (genericErr host)) := by
  cases hp : env.parseIP host with
  | some bytes =>
    have hres : resolveHost env host timeout = (([some bytes], none), []) := by
      simp [resolveHost, hp]
    rw [hres]
    exact ⟨fun _ => by simp, fun e he => by simp at he⟩
  | none =>
    rw [resolveHost_eq_runTiers env host timeout hp]
    have hL : ∀ tier ∈ specTiers env host
        (engineLLMNRTimeout (effectiveTimeout timeout - env.elapsedAtLLMNR)),
        ∀ ip ∈ tier.2.1, ip ≠ none := by
      intro tier htm
      rw [specTiers] at htm
      rcases List.mem_append.mp htm with h1 | h1
      · rcases List.mem_append.mp h1 with h2 | h2
        · rcases List.mem_append.mp h2 with h3 | h3
          · rw [List.mem_singleton.mp h3]
            dsimp only
            exact lookupHost_no_none _
          · split at h3
            · exact absurd h3 (List.not_mem_nil _)
            · rw [List.mem_singleton.mp h3]
              dsimp only
              exact lookupHost_no_none _
        · rw [List.mem_singleton.mp h2]
          dsimp only
          exact lookupLLMNR_no_none _ _ _
      · split at h1
        · exact absurd h1 (List.not_mem_nil _)
        · rw [List.mem_singleton.mp h1]
          dsimp only
          exact lookupLLMNR_no_none _ _ _
    exact runTiers_cases host _ hL none

/-- C1 witness: a literal resolution succeeds with a nonempty list, and an
all-tiers-fail resolution returns the empty list with the last tier's
specific error. -/
theorem c1_witness :
    (resolveHost envLiteral "server" 1000).1.1 ≠ [] ∧
    (resolveHost envAllFail "server" 1000).1.1 = [] ∧
    "no LLMNR responses"
      = (lastCause ((specTiers envAllFail "server"
            (engineLLMNRTimeout (effectiveTimeout 1000 -
              envAllFail.elapsedAtLLMNR))).map
          fun tier => tier.2.2)).getD (genericErr "server") :=
  ⟨(c1_resolveHost_no_empty_success envLiteral "server" 1000).1 rfl,
   ((c1_resolveHost_no_empty_success envAllFail "server" 1000).2
     "no LLMNR responses" (by rfl)).1,
   ((c1_resolveHost_no_empty_success envAllFail "server" 1000).2
     "no LLMNR responses" (by rfl)).2⟩

/-- C2: the tier sequence of resolveHost is exactly: IP-literal fast path
(single address, no network calls), else unicast exact name, unicast
".local" name (skipped when the host already ends in ".local"), multicast
exact name, multicast ".local" name (same guard), the first tier with at
least one address short-circuiting with its deduplicated addresses and no
later tier attempted -- i.e. resolveHost equals running the spec tier list
in order. -/
theorem c2_resolveHost_tier_sequence (env : ResolveEnv) (host : String)
    (timeout : Int) :
    (∀ bytes, env.parseIP host = some bytes →
      resolveHost env host timeout = (([some bytes], none), [])) ∧
    (env.parseIP host = none →
      resolveHost env host timeout
        = runTiers host
            (specTiers env host
              (engineLLMNRTimeout (effectiveTimeout timeout - env.elapsedAtLLMNR)))
            none) := by
  constructor
  · intro bytes hp
    simp [resolveHost, hp]
  · intro hp
    exact resolveHost_eq_runTiers env host timeout hp

/-- C2 witness: the literal fast path returns the parsed address with an
empty call trace, and a non-literal resolution equals the tier run. -/
theorem c2_witness :
    resolveHost envLiteral "10.0.0.5" 1000 = (([some [10, 0, 0, 5]], none), []) ∧
    resolveHost envUnicastOk "server" 1000
      = runTiers "server"
          (specTiers envUnicastOk "server"
            (engineLLMNRTimeout (effectiveTimeout 1000 -
              envUnicastOk.elapsedAtLLMNR)))
          none :=
  ⟨(c2_resolveHost_tier_sequence envLiteral "10.0.0.5" 1000).1 [10, 0, 0, 5] rfl,
   (c2_resolveHost_tier_sequence envUnicastOk "server" 1000).2 rfl⟩

/-- C10: for non-positive timeouts resolveHost behaves exactly as with a
3-second timeout, and the shared deadline is entry time plus 3 seconds. -/
theorem c10_default_timeout (env : ResolveEnv) (host : String) (timeout : Int)
    (h : timeout ≤ 0) :
    resolveHost env host timeout = resolveHost env host threeSeconds ∧
    ∀ now0 : Int, resolveDeadline now0 timeout = now0 + threeSeconds := by
  have he : effectiveTimeout timeout = threeSeconds := if_pos h
  have he3 : effectiveTimeout threeSeconds = threeSeconds :=
    if_neg (by norm_num [threeSeconds])
  constructor
  · simp only [resolveHost, he, he3]
  · intro now0
    rw [resolveDeadline, he]

/-- C10 witness at timeout = -1. -/
theorem c10_witness :
    resolveHost envAllFail "server" (-1) = resolveHost envAllFail "server" threeSeconds ∧
    resolveDeadline 0 (-1) = 0 + threeSeconds :=
  ⟨(c10_default_timeout envAllFail "server" (-1) (by norm_num)).1,
   (c10_default_timeout envAllFail "server" (-1) (by norm_num)).2 0⟩

/-- C5: in lookupLLMNR's receive loop, a timeout-class read error stops
collection and the gathered addresses are returned as a success
(deduplicated) when at least one was collected; a non-timeout read error
aborts the loop and is returned as the call's error; zero collected
addresses by the deadline fails with the no-responses error. -/
theorem c5_llmnr_receive_loop (env : LLMNREnv) (host : String) (t : Int)
    (h1 : env.nameErr (llmnrName host) = none) (h2 : env.packErr = none)
    (h3 : env.listenErr = none) (h4 : env.setDeadlineErr = none)
    (h5 : env.writeV4Err = none) :
    (env.terminal = .timeout →
      ((env.datagrams.map processDatagram).flatten ≠ [] →
        lookupLLMNR env host t
          = (uniqueIPs (env.datagrams.map processDatagram).flatten, none)) ∧
      ((env.datagrams.map processDatagram).flatten = [] →
        lookupLLMNR env host t = ([], some "no LLMNR responses"))) ∧
    (∀ e, env.terminal = .fatal e → lookupLLMNR env host t = ([], some e)) := by
  rw [lookupLLMNR, h1, h2, h3, h4, h5]
  constructor
  · intro ht
    rw [ht]
    constructor
    · intro hne
      dsimp only
      rw [if_neg (fun h => hne (List.length_eq_zero.mp h))]
    · intro hnil
      dsimp only
      rw [if_pos (by rw [hnil]; rfl)]
  · intro e ht
    rw [ht]

/-- C5 witness: one collected answer is returned on timeout; a non-timeout
read error is surfaced even though an answer had been collected. -/
theorem c5_witness :
    lookupLLMNR llmnrEnvOneAnswer "server" 1000
        = (uniqueIPs [some [10, 0, 0, 9]], none) ∧
      lookupLLMNR llmnrEnvFatal "server" 1000
        = ([], some "read udp: connection refused") :=
  ⟨((c5_llmnr_receive_loop llmnrEnvOneAnswer "server" 1000 rfl rfl rfl rfl rfl).1
      rfl).1 (by decide),
   (c5_llmnr_receive_loop llmnrEnvFatal "server" 1000 rfl rfl rfl rfl rfl).2
     "read udp: connection refused" rfl⟩

/-- C6 counterexample: lookupLLMNR does not clamp a non-positive timeout;
its socket read deadline is now + timeout (resolve.go line 132), which for
now = 0 and timeout = 0 is 0, not the 500ms the claim requires. -/
theorem c6_counterexample :
    llmnrSocketDeadline 0 0 = 0 ∧ llmnrSocketDeadline 0 0 ≠ halfSecond := by
  constructor
  · rfl
  · norm_num [llmnrSocketDeadline, halfSecond]

/-- C6 (amended): the 500ms clamping of a non-positive remaining budget is
performed by the engine (resolveHost, lines 52-55), not by the resolver:
every multicast tier in a resolveHost trace carries a positive timeout,
equal either to the clamp value or to the remaining budget, while
lookupLLMNR applies whatever timeout it is given directly to the socket
deadline. -/
theorem c6_engine_clamps (env : ResolveEnv) (host : String) (timeout : Int)
    (name : String) (toNs : Int)
    (hmem : TierCall.multicast name toNs ∈ (resolveHost env host timeout).2) :
    0 < toNs ∧
      (toNs = halfSecond ∨ toNs = effectiveTimeout timeout - env.elapsedAtLLMNR) ∧
      ∀ now : Int, llmnrSocketDeadline now toNs = now + toNs := by
  have hto : toNs = engineLLMNRTimeout (effectiveTimeout timeout - env.elapsedAtLLMNR) := by
    cases hp : env.parseIP host with
    | some bytes =>
      rw [show resolveHost env host timeout = (([some bytes], none), []) from by
        simp [resolveHost, hp]] at hmem
      exact absurd hmem (List.not_mem_nil _)
    | none =>
      rw [resolveHost_eq_runTiers env host timeout hp] at hmem
      have htrace : ∀ L lastErr, TierCall.multicast name toNs ∈ (runTiers host L lastErr).2 →
          ∃ tier ∈ L, tier.1 = TierCall.multicast name toNs := by
        intro L
        induction L with
        | nil => intro lastErr hx; simp [runTiers] at hx
        | cons tier rest ih =>
          intro lastErr hx
          rw [runTiers] at hx
          split at hx
          · exact ⟨tier, List.mem_cons_self _ _, (List.mem_singleton.mp hx).symm⟩
          · dsimp only at hx
            rcases List.mem_cons.mp hx with heq | hx
            · exact ⟨tier, List.mem_cons_self _ _, heq.symm⟩
            · obtain ⟨t2, ht2, he2⟩ := ih _ hx
              exact ⟨t2, List.mem_cons_of_mem _ ht2, he2⟩
      obtain ⟨tier, htm, htier⟩ := htrace _ none hmem
      rw [specTiers] at htm
      rcases List.mem_append.mp htm with h1 | h1
      · rcases List.mem_append.mp h1 with h2 | h2
        · rcases List.mem_append.mp h2 with h3 | h3
          · rw [List.mem_singleton.mp h3] at htier
            exact absurd htier (by simp)
          · split at h3
            · exact absurd h3 (List.not_mem_nil _)
            · rw [List.mem_singleton.mp h3] at htier
              exact absurd htier (by simp)
        · rw [List.mem_singleton.mp h2] at htier
          dsimp only at htier
          exact ((TierCall.multicast.injEq _ _ _ _).mp htier).2.symm
      · split at h1
        · exact absurd h1 (List.not_mem_nil _)
        · rw [List.mem_singleton.mp h1] at htier
          dsimp only at htier
          exact ((TierCall.multicast.injEq _ _ _ _).mp htier).2.symm
  subst hto
  refine ⟨?_, ?_, fun now => rfl⟩
  · rw [engineLLMNRTimeout]
    split
    · norm_num [halfSecond]
    · omega
  · rw [engineLLMNRTimeout]
    split
    · exact Or.inl rfl
    · exact Or.inr rfl

/-- C6 witness: the multicast tiers of a failing resolution each received a
positive, engine-clamped budget. -/
theorem c6_witness :
    0 < (1000 : Int) ∧
      ((1000 : Int) = halfSecond ∨
        (1000 : Int) = effectiveTimeout 1000 - envAllFail.elapsedAtLLMNR) ∧
      ∀ now : Int, llmnrSocketDeadline now 1000 = now + 1000 :=
  c6_engine_clamps envAllFail "server" 1000 "server" 1000 (by decide)

/-- C3 counterexample: the multicast tiers set socket deadlines relative to
their own start times from a budget computed once, so with entry at 0 and a
3-second timeout, a tier-5 read that starts when tier 4's socket deadline
(3s) expires may run until 6s, past the shared 3s deadline: the whole call
is not bounded by the caller's timeout. -/
theorem c3_counterexample :
    resolveDeadline 0 threeSeconds
      < llmnrSocketDeadline
          (llmnrSocketDeadline 0
            (engineLLMNRTimeout (resolveDeadline 0 threeSeconds - 0)))
          (engineLLMNRTimeout (resolveDeadline 0 threeSeconds - 0)) := by
  norm_num [resolveDeadline, effectiveTimeout, engineLLMNRTimeout,
    llmnrSocketDeadline, threeSeconds]

/-- C3 (amended): one absolute deadline is computed once at entry
(resolveDeadline) and is never recomputed; the multicast budget is derived
once from its remaining time and clamped to 500ms, but each multicast tier
applies that budget from its own start time, so the call is only bounded by
the shared deadline plus twice the multicast budget, not by the deadline
itself. -/
theorem c3_amended_bound (now0 timeout nowC now4 now5 : Int)
    (h0 : now0 ≤ nowC) (h1 : nowC ≤ now4)
    (h2 : now4 ≤ resolveDeadline now0 timeout)
    (h3 : now5 ≤ llmnrSocketDeadline now4
      (engineLLMNRTimeout (resolveDeadline now0 timeout - nowC))) :
    llmnrSocketDeadline now5
        (engineLLMNRTimeout (resolveDeadline now0 timeout - nowC))
      ≤ resolveDeadline now0 timeout
          + 2 * engineLLMNRTimeout (resolveDeadline now0 timeout - nowC) := by
  have hpos : 0 < engineLLMNRTimeout (resolveDeadline now0 timeout - nowC) := by
    rw [engineLLMNRTimeout]
    split
    · norm_num [halfSecond]
    · omega
  rw [llmnrSocketDeadline] at h3 ⊢
  omega

/-- C3 witness: the bound at a concrete schedule (entry 0, timeout 3s,
budget computed at entry, tier 5 starting when tier 4's deadline expires). -/
theorem c3_witness :
    llmnrSocketDeadline 3000000000
        (engineLLMNRTimeout (resolveDeadline 0 3000000000 - 0))
      ≤ resolveDeadline 0 3000000000
          + 2 * engineLLMNRTimeout (resolveDeadline 0 3000000000 - 0) :=
  c3_amended_bound 0 3000000000 0 0 3000000000 (by norm_num) (by norm_num)
    (by norm_num [resolveDeadline, effectiveTimeout])
    (by norm_num [resolveDeadline, effectiveTimeout, engineLLMNRTimeout,
      llmnrSocketDeadline])

/-- C4 counterexample: a single-element input is returned unchanged by
uniqueIPs (the fewer-than-two shortcut), so a nil entry survives in the
output. -/
theorem c4_counterexample : (none : NetIP) ∈ uniqueIPs [none] := by
  decide

/-- C4 (amended): for every input with at least two entries, uniqueIPs
returns a list with no nil entry, no two entries of equal canonical string
form, in first-occurrence order (a subsequence of the input equal to the
first-seen dedupe fold); inputs with fewer than two entries are returned
unchanged; in particular [A, A, B, nil, B] yields [A, B]. -/
theorem c4_uniqueIPs_dedup (ips : List NetIP) (h : 2 ≤ ips.length) :
    (none ∉ uniqueIPs ips ∧
      ((uniqueIPs ips).map ipString).Nodup ∧
      (uniqueIPs ips).Sublist ips ∧
      uniqueIPs ips = dedupeSpec ips) ∧
    (∀ l : List NetIP, l.length < 2 → uniqueIPs l = l) ∧
    uniqueIPs [some [192, 168, 1, 1], some [192, 168, 1, 1], some [192, 168, 1, 2],
        none, some [192, 168, 1, 2]]
      = [some [192, 168, 1, 1], some [192, 168, 1, 2]] := by
  refine ⟨⟨?_, ?_, ?_, uniqueIPs_eq_dedupeSpec ips h⟩, ?_, by decide⟩
  · rw [uniqueIPs, if_neg (by omega)]
    exact uniqueIPsLoop_not_none ips []
  · rw [uniqueIPs, if_neg (by omega)]
    exact (uniqueIPsLoop_keys ips []).1
  · rw [uniqueIPs, if_neg (by omega)]
    exact uniqueIPsLoop_sublist ips []
  · intro l hl
    rw [uniqueIPs, if_pos hl]

/-- C4 witness at a two-element input with a duplicate address. -/
theorem c4_witness :
    none ∉ uniqueIPs [some [10, 0, 0, 1], some [10, 0, 0, 1]] :=
  (c4_uniqueIPs_dedup [some [10, 0, 0, 1], some [10, 0, 0, 1]] (by decide)).1.1

/-- On success, the port component of splitHostPort is the substring after
the last colon: a suffix of the input. -/
theorem splitHostPort_port_suffix (a h p : String)
    (hok : splitHostPort a = .ok (h, p)) : List.IsSuffix p.data a.data := by
  rw [splitHostPort] at hok
  split at hok
  · exact absurd hok (by simp)
  · split at hok
    · split at hok
      · exact absurd hok (by simp)
      · split at hok
        · exact absurd hok (by simp)
        · split at hok
          · split at hok
            · exact absurd hok (by simp)
            · split at hok
              · exact absurd hok (by simp)
              · rw [Except.ok.injEq, Prod.mk.injEq] at hok
                rw [← hok.2]
                exact List.drop_suffix _ _
          · split at hok
            · exact absurd hok (by simp)
            · exact absurd hok (by simp)
    · split at hok
      · exact absurd hok (by simp)
      · split at hok
        · exact absurd hok (by simp)
        · split at hok
          · exact absurd hok (by simp)
          · rw [Except.ok.injEq, Prod.mk.injEq] at hok
            rw [← hok.2]
            exact List.drop_suffix _ _

/-- C7 counterexample: splitServerAddress succeeds on "fileserver:abc" and
returns the non-numeric port "abc": the port is not validated to be
digits-only. -/
theorem c7_counterexample :
    splitServerAddress (fun _ => false) "fileserver:abc"
        = .ok ("fileserver", "abc") ∧
      ¬ ∀ c ∈ "abc".data, c.isDigit := by
  constructor
  · rfl
  · decide

/-- C7 (amended): whenever splitServerAddress succeeds, the returned port
is a non-empty string: either the default "445" or the raw, unvalidated
port substring after the last colon of the input (a suffix of it); it is
never empty, but it may be non-numeric. -/
theorem c7_port_nonempty (parseIPOk : String → Bool) (address host port : String)
    (hok : splitServerAddress parseIPOk address = .ok (host, port)) :
    port ≠ "" ∧ (port = "445" ∨ List.IsSuffix port.data address.data) := by
  rw [splitServerAddress] at hok
  split at hok
  · exact absurd hok (by simp)
  · split at hok
    · rw [Except.ok.injEq, Prod.mk.injEq] at hok
      rw [← hok.2]
      exact ⟨by decide, Or.inl rfl⟩
    · cases hsp : splitHostPort address with
      | ok hp =>
        obtain ⟨h0, p0⟩ := hp
        rw [hsp] at hok
        dsimp only at hok
        rw [Except.ok.injEq, Prod.mk.injEq] at hok
        by_cases hp0 : p0 = ""
        · rw [← hok.2, if_pos hp0]
          exact ⟨by decide, Or.inl rfl⟩
        · rw [← hok.2, if_neg hp0]
          exact ⟨hp0, Or.inr (splitHostPort_port_suffix address h0 p0 hsp)⟩
      | error ae =>
        rw [hsp] at hok
        dsimp only at hok
        split at hok
        · split at hok
          · rw [Except.ok.injEq, Prod.mk.injEq] at hok
            rw [← hok.2]
            exact ⟨by decide, Or.inl rfl⟩
          · rw [Except.ok.injEq, Prod.mk.injEq] at hok
            rw [← hok.2]
            exact ⟨by decide, Or.inl rfl⟩
        · split at hok
          · rw [Except.ok.injEq, Prod.mk.injEq] at hok
            rw [← hok.2]
            exact ⟨by decide, Or.inl rfl⟩
          · exact absurd hok (by simp)

/-- C7 witness: a custom numeric port and a defaulted port, both
non-empty. -/
theorem c7_witness :
    ("1445" : String) ≠ "" ∧
      (("1445" : String) = "445" ∨ List.IsSuffix "1445".data "fileserver:1445".data) :=
  c7_port_nonempty (fun _ => false) "fileserver:1445" "fileserver" "1445" rfl

end Smbput

